import Mathlib

/-!
Verification of the MyBustub storage-engine core against its design
specification.  The development shallowly embeds the three components of
the source tree — the extendible hash table
(`src/container/hash/extendible_hash_table.cpp`), the LRU-K replacer
(`src/buffer/lru_k_replacer.cpp`) and the B+-tree index with its range
iterator (`src/storage/index/b_plus_tree.cpp`,
`src/storage/index/index_iterator.cpp`) — as executable Lean functions,
and proves or refutes the specification's claims about them.

Keys are modelled as `Nat`; the C++ `std::hash` is an explicit function
parameter `h : Nat → Nat`.  Machine integers of the source are modelled
as `Nat` (sizes, depths, timestamps) or `Int` (page ids, where the
sentinel `INVALID_PAGE_ID` is `-1`).
-/

namespace MyBustub

/-! ## Extendible hash table (`extendible_hash_table.cpp`)

A C++ `Bucket` holds its capacity bound `size_`, its local depth
`depth_` and a `std::list` of key/value pairs whose front is the head of
the Lean list.  Directory slots hold `shared_ptr`s to buckets; aliasing
is modelled by a bucket store (`store`, indexed by bucket id) together
with a directory of bucket ids (`dir`). -/

structure EBucket (V : Type) where
  cap : Nat
  depth : Nat
  list : List (Nat × V)
  deriving Repr, DecidableEq

structure EHT (V : Type) where
  bucketSize : Nat
  globalDepth : Nat
  numBuckets : Nat
  store : List (EBucket V)
  dir : List Nat
  deriving Repr, DecidableEq

/-- Default bucket used by out-of-range lookups in the model; it is
never reachable from well-formed states. -/
def ebDefault {V : Type} : EBucket V := ⟨0, 0, []⟩

/-- Constructor `ExtendibleHashTable(bucket_size)`: one empty bucket of
local depth 0, global depth 0, one bucket. -/
def ehtInit (V : Type) (bucketSize : Nat) : EHT V :=
  ⟨bucketSize, 0, 1, [⟨bucketSize, 0, []⟩], [0]⟩

/-- `IndexOf(key)`: `hash(key) & ((1 << global_depth) - 1)`, i.e. the
hash modulo `2 ^ G`. -/
def ehtIndexOf (h : Nat → Nat) (g : Nat) (k : Nat) : Nat :=
  h k % 2 ^ g

/-- `Bucket::Find`: scan the list front to back for the first entry with
this key. -/
def ebFind {V : Type} (b : EBucket V) (k : Nat) : Option V :=
  (b.list.find? (fun p => p.1 == k)).map (fun p => p.2)

/-- `Bucket::Remove`: erase the first entry with this key; report
whether one was found. -/
def ebRemove {V : Type} (b : EBucket V) (k : Nat) : Bool × EBucket V :=
  (b.list.any (fun p => p.1 == k), { b with list := b.list.eraseP (fun p => p.1 == k) })

/-- In-place update of the first entry carrying key `k` (the loop body
of `Bucket::Insert` when the scan finds the key). -/
def ebUpd {V : Type} (k : Nat) (v : V) : List (Nat × V) → List (Nat × V)
  | [] => []
  | p :: rest => if p.1 = k then (k, v) :: rest else p :: ebUpd k v rest

/-- `Bucket::Insert`: fail when the bucket is full (`IsFull`, modelled
from the spec's bucket-size bound `B`: the list already holds `cap`
entries); otherwise overwrite the first entry with this key, or push the
pair to the front when the key is absent. -/
def ebInsert {V : Type} (b : EBucket V) (k : Nat) (v : V) : Option (EBucket V) :=
  if b.cap ≤ b.list.length then none
  else if b.list.any (fun p => p.1 == k) then
    some { b with list := ebUpd k v b.list }
  else
    some { b with list := (k, v) :: b.list }

/-- `Find(key)`: delegate to the bucket at `dir[IndexOf(key)]`. -/
def ehtFind {V : Type} (h : Nat → Nat) (t : EHT V) (k : Nat) : Option V :=
  ebFind (t.store.getD (t.dir.getD (ehtIndexOf h t.globalDepth k) 0) ebDefault) k

/-- `Remove(key)`: delegate to the bucket at `dir[IndexOf(key)]`. -/
def ehtRemove {V : Type} (h : Nat → Nat) (t : EHT V) (k : Nat) : Bool × EHT V :=
  let i := ehtIndexOf h t.globalDepth k
  let id := t.dir.getD i 0
  let r := ebRemove (t.store.getD id ebDefault) k
  (r.1, { t with store := t.store.set id r.2 })

/-- One step of `RedistributeBucket`'s item loop: route an item to
`bucket1` when bit `L` of its hash is set, else to `bucket0`, inserting
via `Bucket::Insert` (whose boolean result the C++ code ignores). -/
def ebInsertD {V : Type} (b : EBucket V) (p : Nat × V) : EBucket V :=
  (ebInsert b p.1 p.2).getD b

/-- The item loop of `RedistributeBucket`: distribute the old bucket's
entries over the two fresh buckets by bit `L` of each key's hash. -/
def redistItems {V : Type} (h : Nat → Nat) (l : Nat) (items : List (Nat × V))
    (b0 b1 : EBucket V) : EBucket V × EBucket V :=
  items.foldl
    (fun bs p => if Nat.testBit (h p.1) l then (bs.1, ebInsertD bs.2 p) else (ebInsertD bs.1 p, bs.2))
    (b0, b1)

/-- The directory re-pointing loop of `RedistributeBucket`: a slot
congruent to `dir_index` modulo `2 ^ L` is re-pointed at bucket1 when
bit `L` of the slot index is set, else at bucket0 (the fresh buckets
get store ids `n` and `n + 1`); other slots keep their bucket. -/
def redistSlot (l r n : Nat) (dir : List Nat) (i : Nat) : Nat :=
  if i % 2 ^ l = r % 2 ^ l then (if Nat.testBit i l then n + 1 else n) else dir.getD i 0

/-- `RedistributeBucket(bucket, dir_index)`: create two buckets of local
depth `L+1`, bump the bucket count, split the items by bit `L` of the
hash, and re-point every directory slot congruent to `dir_index`
modulo `2 ^ L` at bucket0 or bucket1 according to bit `L` of the slot
index.  The two fresh buckets get the next two store ids. -/
def ehtRedistribute {V : Type} (h : Nat → Nat) (t : EHT V) (r : Nat) : EHT V :=
  let id := t.dir.getD r 0
  let b := t.store.getD id ebDefault
  let l := b.depth
  let fresh : EBucket V := ⟨t.bucketSize, l + 1, []⟩
  let bs := redistItems h l b.list fresh fresh
  let n := t.store.length
  { t with
    numBuckets := t.numBuckets + 1
    store := t.store ++ [bs.1, bs.2]
    dir := (List.range t.dir.length).map (redistSlot l r n t.dir) }

/-- Directory doubling inside `Insert`: append a copy of the directory
to itself and increment the global depth. -/
def ehtDouble {V : Type} (t : EHT V) : EHT V :=
  { t with dir := t.dir ++ t.dir, globalDepth := t.globalDepth + 1 }

/-- `Insert(key, value)`: retry loop of the source, with explicit fuel
standing for the number of loop iterations (the C++ `while` loop; `none`
means the fuel did not cover the required number of splits).  Each
failed bucket insert doubles the directory when the bucket's local depth
has reached the global depth, then splits the bucket and retries. -/
def ehtInsertFuel {V : Type} (h : Nat → Nat) : Nat → EHT V → Nat → V → Option (EHT V)
  | 0, _, _, _ => none
  | fuel + 1, t, k, v =>
    let i := ehtIndexOf h t.globalDepth k
    let id := t.dir.getD i 0
    match ebInsert (t.store.getD id ebDefault) k v with
    | some b2 => some { t with store := t.store.set id b2 }
    | none =>
      let t2 := if (t.store.getD id ebDefault).depth = t.globalDepth then ehtDouble t else t
      ehtInsertFuel h fuel (ehtRedistribute h t2 i) k v

/-- Identity hash on integers, as the spec's scenarios use
(`std::hash<int>` on the source's platforms). -/
def hid : Nat → Nat := fun n => n

/-- The bucket referenced by directory slot `j`. -/
def ehtBucketAt {V : Type} (t : EHT V) (j : Nat) : EBucket V :=
  t.store.getD (t.dir.getD j 0) ebDefault

/-! ### List and arithmetic helpers -/

theorem getD_set_self {α : Type} (l : List α) (i : Nat) (a d : α) (hi : i < l.length) :
    (l.set i a).getD i d = a := by
  simp [List.getD_eq_getD_get?, List.get?_eq_getElem?, List.getElem?_set_eq_of_lt a hi]

theorem getD_set_ne {α : Type} (l : List α) (i j : Nat) (a d : α) (hij : i ≠ j) :
    (l.set i a).getD j d = l.getD j d := by
  simp [List.getD_eq_getD_get?, List.get?_eq_getElem?, List.getElem?_set_ne hij]

theorem getD_append_left {α : Type} (l l2 : List α) (i : Nat) (d : α) (hi : i < l.length) :
    (l ++ l2).getD i d = l.getD i d := by
  simp [List.getD_eq_getD_get?, List.get?_eq_getElem?, List.getElem?_append_left hi]

theorem getD_append_right {α : Type} (l l2 : List α) (i : Nat) (d : α) (hi : l.length ≤ i) :
    (l ++ l2).getD i d = l2.getD (i - l.length) d := by
  simp [List.getD_eq_getD_get?, List.get?_eq_getElem?, List.getElem?_append_right hi]

theorem getD_map_range {α : Type} (f : Nat → α) (n i : Nat) (d : α) (hi : i < n) :
    (((List.range n).map f).getD i d) = f i := by
  simp [List.getD_eq_getD_get?, List.get?_eq_getElem?, List.getElem?_map, List.getElem?_range hi]

theorem getD_doubled {α : Type} (l : List α) (i : Nat) (d : α) (hi : i < 2 * l.length) :
    (l ++ l).getD i d = l.getD (i % l.length) d := by
  rcases Nat.lt_or_ge i l.length with hlt | hge
  · rw [getD_append_left _ _ _ _ hlt, Nat.mod_eq_of_lt hlt]
  · rw [getD_append_right _ _ _ _ hge, Nat.mod_eq_sub_mod hge,
      Nat.mod_eq_of_lt (by omega)]

theorem two_pow_pos (n : Nat) : 0 < 2 ^ n := Nat.pos_pow_of_pos n (by omega)

theorem mod_pow_mod {x l g : Nat} (hlg : l ≤ g) : x % 2 ^ g % 2 ^ l = x % 2 ^ l :=
  Nat.mod_mod_of_dvd _ (pow_dvd_pow 2 hlg)

/-- Two naturals agree modulo `2 ^ (l + 1)` iff they agree modulo `2 ^ l`
and have the same bit `l`. -/
theorem mod_pow_succ_iff (x y l : Nat) :
    x % 2 ^ (l + 1) = y % 2 ^ (l + 1) ↔
      (x % 2 ^ l = y % 2 ^ l ∧ Nat.testBit x l = Nat.testBit y l) := by
  have hx : x % 2 ^ (l + 1) = x % 2 ^ l + 2 ^ l * (x / 2 ^ l % 2) := by
    rw [pow_succ, Nat.mod_mul]
  have hy : y % 2 ^ (l + 1) = y % 2 ^ l + 2 ^ l * (y / 2 ^ l % 2) := by
    rw [pow_succ, Nat.mod_mul]
  have hbx : x % 2 ^ l < 2 ^ l := Nat.mod_lt _ (two_pow_pos l)
  have hby : y % 2 ^ l < 2 ^ l := Nat.mod_lt _ (two_pow_pos l)
  have hdx : x / 2 ^ l % 2 = 0 ∨ x / 2 ^ l % 2 = 1 := by omega
  have hdy : y / 2 ^ l % 2 = 0 ∨ y / 2 ^ l % 2 = 1 := by omega
  rw [Nat.testBit_to_div_mod, Nat.testBit_to_div_mod]
  rcases hdx with hx0 | hx0 <;> rcases hdy with hy0 | hy0 <;>
    rw [hx0] at hx <;> rw [hy0] at hy <;> rw [hx0, hy0, hx, hy] <;>
      simp <;> omega

theorem filter_beq_range_ge (a r : Nat) (hr : a ≤ r) :
    (List.range a).filter (fun i => i == r) = [] := by
  rw [List.filter_eq_nil_iff]
  intro i hi
  rw [List.mem_range] at hi
  simp only [beq_iff_eq]
  omega

theorem length_filter_beq_range (a r : Nat) (hr : r < a) :
    ((List.range a).filter (fun i => i == r)).length = 1 := by
  induction a with
  | zero => omega
  | succ a ih =>
    rw [List.range_succ, List.filter_append, List.length_append]
    rcases Nat.lt_or_ge r a with hlt | hge
    · rw [ih hlt]
      have : (a == r) = false := by simp; omega
      simp [this]
    · have hra : r = a := by omega
      rw [hra, filter_beq_range_ge a a (Nat.le_refl a)]
      simp

/-- Among the first `a * b` naturals, exactly `b` are congruent to a
given residue `r` modulo `a`. -/
theorem length_filter_mod (a b r : Nat) (hr : r < a) :
    ((List.range (a * b)).filter (fun i => i % a == r)).length = b := by
  induction b with
  | zero => simp
  | succ b ih =>
    have hab : a * (b + 1) = a * b + a := by ring
    rw [hab, List.range_add, List.filter_append, List.length_append, ih]
    have hmap : ((List.range a).map (a * b + ·)).filter (fun i => i % a == r) =
        ((List.range a).filter (fun i => (a * b + i) % a == r)).map (a * b + ·) := by
      rw [List.filter_map]
      rfl
    rw [hmap, List.length_map]
    have hcongr : (List.range a).filter (fun i => (a * b + i) % a == r) =
        (List.range a).filter (fun i => i == r) := by
      apply List.filter_congr
      intro i hi
      rw [List.mem_range] at hi
      rw [Nat.add_comm, Nat.mul_comm, Nat.add_mul_mod_self_right, Nat.mod_eq_of_lt hi]
    rw [hcongr, length_filter_beq_range a r hr]

/-! ### Directory invariants (spec §4.B / §8.4) -/

/-- Well-formedness of an extendible-hash-table state: the directory
length is `2 ^ G`; every directory slot holds a valid bucket id; every
referenced bucket's local depth is at most `G`; two slots reference the
same bucket exactly when they agree modulo `2 ^ L` of that bucket's
local depth; and every key stored in the bucket referenced by slot `j`
hashes to `j` modulo `2 ^ L`. -/
structure EHTWf {V : Type} (h : Nat → Nat) (t : EHT V) : Prop where
  len_eq : t.dir.length = 2 ^ t.globalDepth
  ids_lt : ∀ j < t.dir.length, t.dir.getD j 0 < t.store.length
  depth_le : ∀ j < t.dir.length, (ehtBucketAt t j).depth ≤ t.globalDepth
  slots : ∀ j < t.dir.length, ∀ i < t.dir.length,
    (t.dir.getD i 0 = t.dir.getD j 0 ↔
      i % 2 ^ (ehtBucketAt t j).depth = j % 2 ^ (ehtBucketAt t j).depth)
  keys : ∀ j < t.dir.length, ∀ p ∈ (ehtBucketAt t j).list,
    h p.1 % 2 ^ (ehtBucketAt t j).depth = j % 2 ^ (ehtBucketAt t j).depth

theorem ehtWf_init {V : Type} (h : Nat → Nat) (b : Nat) : EHTWf h (ehtInit V b) := by
  refine ⟨rfl, ?_, ?_, ?_, ?_⟩ <;> intro j hj
  all_goals simp only [ehtInit, List.length_cons, List.length_nil] at hj
  all_goals have hj0 : j = 0 := by omega
  all_goals subst hj0
  · simp [ehtInit]
  · simp [ehtInit, ehtBucketAt, ebDefault]
  · intro i hi
    simp only [ehtInit, List.length_cons, List.length_nil] at hi
    have hi0 : i = 0 := by omega
    subst hi0
    simp [ehtInit, ehtBucketAt, ebDefault]
  · intro p hp
    simp [ehtInit, ehtBucketAt] at hp

/-- Keys of a list after an in-place update: every entry either carries
the updated key or was already present. -/
theorem ebUpd_mem {V : Type} (k : Nat) (v : V) (l : List (Nat × V)) (p : Nat × V)
    (hp : p ∈ ebUpd k v l) : p.1 = k ∨ p ∈ l := by
  induction l with
  | nil => simp [ebUpd] at hp
  | cons q rest ih =>
    by_cases hq : q.1 = k
    · rw [ebUpd, if_pos hq] at hp
      rcases List.mem_cons.mp hp with hp1 | hp1
      · left; rw [hp1]
      · right; exact List.mem_cons_of_mem _ hp1
    · rw [ebUpd, if_neg hq] at hp
      rcases List.mem_cons.mp hp with hp1 | hp1
      · right; rw [hp1]; exact List.mem_cons_self _ _
      · rcases ih hp1 with hh | hh
        · left; exact hh
        · right; exact List.mem_cons_of_mem _ hh

/-- Keys after a successful `Bucket::Insert`: every entry either carries
the inserted key or was already present; depth and capacity are kept. -/
theorem ebInsert_mem {V : Type} (b : EBucket V) (k : Nat) (v : V) (b2 : EBucket V)
    (hins : ebInsert b k v = some b2) :
    b2.depth = b.depth ∧ b2.cap = b.cap ∧
      ∀ p ∈ b2.list, p.1 = k ∨ p ∈ b.list := by
  unfold ebInsert at hins
  split at hins
  · exact absurd hins (by simp)
  · split at hins <;> (injection hins with hb; subst hb)
    · refine ⟨rfl, rfl, ?_⟩
      intro p hp
      exact ebUpd_mem k v b.list p hp
    · refine ⟨rfl, rfl, ?_⟩
      intro p hp
      rcases List.mem_cons.mp hp with hp | hp
      · left; rw [hp]
      · right; exact hp

/-- A successful `Bucket::Insert` implies the bucket was not full; in
particular the default out-of-range bucket (capacity 0) never accepts an
insert. -/
theorem ebInsert_not_full {V : Type} (b : EBucket V) (k : Nat) (v : V) (b2 : EBucket V)
    (hins : ebInsert b k v = some b2) : b.list.length < b.cap := by
  unfold ebInsert at hins
  split at hins
  · exact absurd hins (by simp)
  · omega

theorem ehtWf_remove {V : Type} (h : Nat → Nat) (t : EHT V) (k : Nat)
    (hwf : EHTWf h t) : EHTWf h (ehtRemove h t k).2 := by
  obtain ⟨h1, h2, h3, h4, h5⟩ := hwf
  have hilt : ehtIndexOf h t.globalDepth k < t.dir.length := by
    rw [h1]; exact Nat.mod_lt _ (two_pow_pos _)
  have hidlt : t.dir.getD (ehtIndexOf h t.globalDepth k) 0 < t.store.length := h2 _ hilt
  have hbAt : ∀ j, ehtBucketAt (ehtRemove h t k).2 j =
      (if t.dir.getD j 0 = t.dir.getD (ehtIndexOf h t.globalDepth k) 0 then
        (ebRemove (ehtBucketAt t (ehtIndexOf h t.globalDepth k)) k).2
      else ehtBucketAt t j) := by
    intro j
    simp only [ehtRemove, ehtBucketAt]
    by_cases hcase : t.dir.getD j 0 = t.dir.getD (ehtIndexOf h t.globalDepth k) 0
    · rw [if_pos hcase, hcase, getD_set_self _ _ _ _ hidlt]
    · rw [if_neg hcase, getD_set_ne _ _ _ _ _ (fun hc => hcase hc.symm)]
  have hdepth : ∀ j, (ehtBucketAt (ehtRemove h t k).2 j).depth = (ehtBucketAt t j).depth := by
    intro j
    rw [hbAt j]
    by_cases hc : t.dir.getD j 0 = t.dir.getD (ehtIndexOf h t.globalDepth k) 0
    · rw [if_pos hc]
      simp only [ebRemove, ehtBucketAt]
      rw [hc]
    · rw [if_neg hc]
  refine ⟨h1, ?_, ?_, ?_, ?_⟩
  · intro j hj
    simpa [ehtRemove] using h2 j (by simpa [ehtRemove] using hj)
  · intro j hj
    rw [hdepth j]
    exact h3 j (by simpa [ehtRemove] using hj)
  · intro j hj i2 hi2
    rw [hdepth j]
    simp only [ehtRemove] at hj hi2 ⊢
    exact h4 j (by simpa using hj) i2 (by simpa using hi2)
  · intro j hj p hp
    rw [hdepth j]
    simp only [ehtRemove] at hj
    rw [hbAt j] at hp
    by_cases hc : t.dir.getD j 0 = t.dir.getD (ehtIndexOf h t.globalDepth k) 0
    · rw [if_pos hc] at hp
      simp only [ebRemove] at hp
      have hsub : p ∈ (ehtBucketAt t (ehtIndexOf h t.globalDepth k)).list :=
        (List.eraseP_sublist _).mem hp
      exact h5 j (by simpa using hj) p (by rw [ehtBucketAt, hc]; exact hsub)
    · rw [if_neg hc] at hp
      exact h5 j (by simpa using hj) p hp

theorem ehtWf_double {V : Type} (h : Nat → Nat) (t : EHT V)
    (hwf : EHTWf h t) : EHTWf h (ehtDouble t) := by
  obtain ⟨h1, h2, h3, h4, h5⟩ := hwf
  have hpos : 0 < t.dir.length := by
    rw [h1]; exact two_pow_pos _
  have hlen : (ehtDouble t).dir.length = 2 * t.dir.length := by
    simp [ehtDouble, Nat.two_mul]
  have hdir : ∀ j < 2 * t.dir.length,
      (ehtDouble t).dir.getD j 0 = t.dir.getD (j % t.dir.length) 0 := by
    intro j hj
    simp only [ehtDouble]
    exact getD_doubled _ _ _ hj
  have hmodlt : ∀ j, j % t.dir.length < t.dir.length := fun j => Nat.mod_lt _ hpos
  have hbAt : ∀ j < 2 * t.dir.length,
      ehtBucketAt (ehtDouble t) j = ehtBucketAt t (j % t.dir.length) := by
    intro j hj
    simp only [ehtBucketAt, ehtDouble]
    rw [getD_doubled _ _ _ hj]
  have hmm : ∀ (j : Nat) (m : Nat), m ≤ t.globalDepth →
      j % t.dir.length % 2 ^ m = j % 2 ^ m := by
    intro j m hm
    rw [h1]
    exact mod_pow_mod hm
  refine ⟨?_, ?_, ?_, ?_, ?_⟩
  · rw [hlen, h1]
    simp [ehtDouble, Nat.pow_succ, Nat.mul_comm]
  · intro j hj
    rw [hlen] at hj
    rw [hdir j hj]
    simpa [ehtDouble] using h2 _ (hmodlt j)
  · intro j hj
    rw [hlen] at hj
    rw [hbAt j hj]
    simp only [ehtDouble]
    exact Nat.le_succ_of_le (h3 _ (hmodlt j))
  · intro j hj i hi
    rw [hlen] at hj hi
    rw [hbAt j hj, hdir j hj, hdir i hi]
    have hdep := h3 _ (hmodlt j)
    constructor
    · intro heq
      have := (h4 _ (hmodlt j) _ (hmodlt i)).mp heq
      rw [hmm i _ hdep, hmm j _ hdep] at this
      exact this
    · intro heq
      apply (h4 _ (hmodlt j) _ (hmodlt i)).mpr
      rw [hmm i _ hdep, hmm j _ hdep]
      exact heq
  · intro j hj p hp
    rw [hlen] at hj
    rw [hbAt j hj] at hp ⊢
    have hdep := h3 _ (hmodlt j)
    rw [show (j % 2 ^ (ehtBucketAt t (j % t.dir.length)).depth) =
        (j % t.dir.length % 2 ^ (ehtBucketAt t (j % t.dir.length)).depth) from
      (hmm j _ hdep).symm]
    exact h5 _ (hmodlt j) p hp

theorem ebInsertD_depth {V : Type} (b : EBucket V) (p : Nat × V) :
    (ebInsertD b p).depth = b.depth := by
  unfold ebInsertD
  cases hins : ebInsert b p.1 p.2 with
  | none => rfl
  | some b2 => exact (ebInsert_mem b p.1 p.2 b2 hins).1

theorem ebInsertD_mem {V : Type} (b : EBucket V) (p : Nat × V) (q : Nat × V)
    (hq : q ∈ (ebInsertD b p).list) : q.1 = p.1 ∨ q ∈ b.list := by
  unfold ebInsertD at hq
  cases hins : ebInsert b p.1 p.2 with
  | none => right; rw [hins] at hq; exact hq
  | some b2 =>
    rw [hins] at hq
    exact (ebInsert_mem b p.1 p.2 b2 hins).2.2 q hq

/-- Every entry of the two buckets produced by the redistribute item
loop either came from the initial accumulator or has the key of some
distributed item with the corresponding bit. -/
theorem redistItems_spec {V : Type} (h : Nat → Nat) (l : Nat) (items : List (Nat × V))
    (b0 b1 : EBucket V) :
    (redistItems h l items b0 b1).1.depth = b0.depth ∧
    (redistItems h l items b0 b1).2.depth = b1.depth ∧
    (∀ p ∈ (redistItems h l items b0 b1).1.list,
      p ∈ b0.list ∨ ∃ q ∈ items, p.1 = q.1 ∧ Nat.testBit (h q.1) l = false) ∧
    (∀ p ∈ (redistItems h l items b0 b1).2.list,
      p ∈ b1.list ∨ ∃ q ∈ items, p.1 = q.1 ∧ Nat.testBit (h q.1) l = true) := by
  induction items generalizing b0 b1 with
  | nil => exact ⟨rfl, rfl, fun p hp => Or.inl hp, fun p hp => Or.inl hp⟩
  | cons q rest ih =>
    by_cases hbit : Nat.testBit (h q.1) l
    · have hfold : redistItems h l (q :: rest) b0 b1 = redistItems h l rest b0 (ebInsertD b1 q) := by
        simp [redistItems, hbit]
      rw [hfold]
      obtain ⟨ihd0, ihd1, ih0, ih1⟩ := ih b0 (ebInsertD b1 q)
      refine ⟨ihd0, by rw [ihd1, ebInsertD_depth], ?_, ?_⟩
      · intro p hp
        rcases ih0 p hp with hin | ⟨q2, hq2, hk, hb⟩
        · exact Or.inl hin
        · exact Or.inr ⟨q2, List.mem_cons_of_mem _ hq2, hk, hb⟩
      · intro p hp
        rcases ih1 p hp with hin | ⟨q2, hq2, hk, hb⟩
        · rcases ebInsertD_mem b1 q p hin with hk | hin2
          · exact Or.inr ⟨q, List.mem_cons_self _ _, hk, hbit⟩
          · exact Or.inl hin2
        · exact Or.inr ⟨q2, List.mem_cons_of_mem _ hq2, hk, hb⟩
    · have hfold : redistItems h l (q :: rest) b0 b1 = redistItems h l rest (ebInsertD b0 q) b1 := by
        simp [redistItems, hbit]
      rw [hfold]
      obtain ⟨ihd0, ihd1, ih0, ih1⟩ := ih (ebInsertD b0 q) b1
      refine ⟨by rw [ihd0, ebInsertD_depth], ihd1, ?_, ?_⟩
      · intro p hp
        rcases ih0 p hp with hin | ⟨q2, hq2, hk, hb⟩
        · rcases ebInsertD_mem b0 q p hin with hk | hin2
          · exact Or.inr ⟨q, List.mem_cons_self _ _, hk, by simpa using hbit⟩
          · exact Or.inl hin2
        · exact Or.inr ⟨q2, List.mem_cons_of_mem _ hq2, hk, hb⟩
      · intro p hp
        rcases ih1 p hp with hin | ⟨q2, hq2, hk, hb⟩
        · exact Or.inl hin
        · exact Or.inr ⟨q2, List.mem_cons_of_mem _ hq2, hk, hb⟩

/-- Bucket split preserves the directory invariants: the slots that
pointed at the split bucket — exactly one residue class modulo `2 ^ L` —
are re-pointed at the two depth-`L+1` buckets by bit `L`, and their keys
follow the same bit. -/
theorem ehtWf_redistribute {V : Type} (h : Nat → Nat) (t : EHT V) (r : Nat)
    (hwf : EHTWf h t) (hr : r < t.dir.length)
    (hdlt : (ehtBucketAt t r).depth < t.globalDepth) :
    EHTWf h (ehtRedistribute h t r) := by
  obtain ⟨h1, h2, h3, h4, h5⟩ := hwf
  obtain ⟨hd0, hd1, hm0, hm1⟩ := redistItems_spec h (ehtBucketAt t r).depth
    (ehtBucketAt t r).list
    ⟨t.bucketSize, (ehtBucketAt t r).depth + 1, []⟩
    ⟨t.bucketSize, (ehtBucketAt t r).depth + 1, []⟩
  set L := (ehtBucketAt t r).depth with hLdef
  set B0 := (redistItems h L (ehtBucketAt t r).list
    ⟨t.bucketSize, L + 1, []⟩ ⟨t.bucketSize, L + 1, []⟩).1 with hB0def
  set B1 := (redistItems h L (ehtBucketAt t r).list
    ⟨t.bucketSize, L + 1, []⟩ ⟨t.bucketSize, L + 1, []⟩).2 with hB1def
  set n := t.store.length with hndef
  have hB0d : B0.depth = L + 1 := hd0
  have hB1d : B1.depth = L + 1 := hd1
  have hSdir : (ehtRedistribute h t r).dir =
      (List.range t.dir.length).map (redistSlot L r n t.dir) := rfl
  have hSstore : (ehtRedistribute h t r).store = t.store ++ [B0, B1] := rfl
  have hSG : (ehtRedistribute h t r).globalDepth = t.globalDepth := rfl
  have hSlen : (ehtRedistribute h t r).dir.length = t.dir.length := by
    rw [hSdir]; simp
  have hSstoreLen : (ehtRedistribute h t r).store.length = n + 2 := by
    rw [hSstore]; simp
  have hstore_lt : ∀ a, a < n → (t.store ++ [B0, B1]).getD a ebDefault = t.store.getD a ebDefault :=
    fun a ha => getD_append_left _ _ _ _ ha
  have hstore_n : (t.store ++ [B0, B1]).getD n ebDefault = B0 := by
    rw [getD_append_right _ _ _ _ (Nat.le_refl _)]
    simp
  have hstore_n1 : (t.store ++ [B0, B1]).getD (n + 1) ebDefault = B1 := by
    rw [getD_append_right _ _ _ _ (by omega)]
    have : n + 1 - n = 1 := by omega
    rw [this]
    simp
  have hdir' : ∀ j, j < t.dir.length →
      (ehtRedistribute h t r).dir.getD j 0 = redistSlot L r n t.dir j := by
    intro j hj
    rw [hSdir, getD_map_range _ _ _ _ hj]
  have hbAt' : ∀ j, j < t.dir.length → ehtBucketAt (ehtRedistribute h t r) j =
      (t.store ++ [B0, B1]).getD (redistSlot L r n t.dir j) ebDefault := by
    intro j hj
    rw [ehtBucketAt, hSstore, hdir' j hj]
  have hids_old : ∀ j, j < t.dir.length → t.dir.getD j 0 < n := h2
  -- slots congruent to r point at the old bucket, and vice versa
  have hragree : ∀ i, i < t.dir.length →
      (t.dir.getD i 0 = t.dir.getD r 0 ↔ i % 2 ^ L = r % 2 ^ L) := by
    intro i hi
    exact h4 r hr i hi
  -- slot-level characterization of the new directory
  have hslot_in0 : ∀ i, i % 2 ^ L = r % 2 ^ L → Nat.testBit i L = false →
      redistSlot L r n t.dir i = n := by
    intro i hm hb
    rw [redistSlot, if_pos hm, hb]
    simp
  have hslot_in1 : ∀ i, i % 2 ^ L = r % 2 ^ L → Nat.testBit i L = true →
      redistSlot L r n t.dir i = n + 1 := by
    intro i hm hb
    rw [redistSlot, if_pos hm, hb]
    simp
  have hslot_out : ∀ i, ¬(i % 2 ^ L = r % 2 ^ L) →
      redistSlot L r n t.dir i = t.dir.getD i 0 := by
    intro i hm
    rw [redistSlot, if_neg hm]
  -- bucket-level characterization of the new state
  have hbAt0 : ∀ j, j < t.dir.length → j % 2 ^ L = r % 2 ^ L → Nat.testBit j L = false →
      ehtBucketAt (ehtRedistribute h t r) j = B0 := by
    intro j hj hm hb
    rw [hbAt' j hj, hslot_in0 j hm hb, hstore_n]
  have hbAt1 : ∀ j, j < t.dir.length → j % 2 ^ L = r % 2 ^ L → Nat.testBit j L = true →
      ehtBucketAt (ehtRedistribute h t r) j = B1 := by
    intro j hj hm hb
    rw [hbAt' j hj, hslot_in1 j hm hb, hstore_n1]
  have hbAtOut : ∀ j, j < t.dir.length → ¬(j % 2 ^ L = r % 2 ^ L) →
      ehtBucketAt (ehtRedistribute h t r) j = ehtBucketAt t j := by
    intro j hj hm
    rw [hbAt' j hj, hslot_out j hm, hstore_lt _ (hids_old j hj), ehtBucketAt]
  refine ⟨?_, ?_, ?_, ?_, ?_⟩
  · rw [hSlen, hSG, h1]
  · intro j hj
    rw [hSlen] at hj
    rw [hdir' j hj, hSstoreLen, redistSlot]
    split
    · split
      · omega
      · omega
    · have := hids_old j hj
      omega
  · intro j hj
    rw [hSlen] at hj
    rw [hSG]
    by_cases hm : j % 2 ^ L = r % 2 ^ L
    · cases hb : Nat.testBit j L
      · rw [hbAt0 j hj hm hb, hB0d]
        omega
      · rw [hbAt1 j hj hm hb, hB1d]
        omega
    · rw [hbAtOut j hj hm]
      exact h3 j hj
  · intro j hj i hi
    rw [hSlen] at hj hi
    rw [hdir' j hj, hdir' i hi]
    by_cases hm : j % 2 ^ L = r % 2 ^ L
    · -- re-pointed slot: the new bucket has depth L + 1
      cases hb : Nat.testBit j L
      · rw [hbAt0 j hj hm hb, hB0d, hslot_in0 j hm hb]
        constructor
        · intro heq
          by_cases hmi : i % 2 ^ L = r % 2 ^ L
          · cases hbi : Nat.testBit i L
            · rw [mod_pow_succ_iff]
              exact ⟨by rw [hmi, hm], by rw [hbi, hb]⟩
            · rw [hslot_in1 i hmi hbi] at heq
              omega
          · rw [hslot_out i hmi] at heq
            have := hids_old i hi
            omega
        · intro heq
          rw [mod_pow_succ_iff] at heq
          have hmi : i % 2 ^ L = r % 2 ^ L := by rw [heq.1, hm]
          exact hslot_in0 i hmi (by rw [heq.2, hb])
      · rw [hbAt1 j hj hm hb, hB1d, hslot_in1 j hm hb]
        constructor
        · intro heq
          by_cases hmi : i % 2 ^ L = r % 2 ^ L
          · cases hbi : Nat.testBit i L
            · rw [hslot_in0 i hmi hbi] at heq
              omega
            · rw [mod_pow_succ_iff]
              exact ⟨by rw [hmi, hm], by rw [hbi, hb]⟩
          · rw [hslot_out i hmi] at heq
            have := hids_old i hi
            omega
        · intro heq
          rw [mod_pow_succ_iff] at heq
          have hmi : i % 2 ^ L = r % 2 ^ L := by rw [heq.1, hm]
          exact hslot_in1 i hmi (by rw [heq.2, hb])
    · -- untouched slot: the old bucket keeps its residue class
      rw [hbAtOut j hj hm, hslot_out j hm]
      constructor
      · intro heq
        by_cases hmi : i % 2 ^ L = r % 2 ^ L
        · exfalso
          rw [redistSlot, if_pos hmi] at heq
          have := hids_old j hj
          split at heq <;> omega
        · rw [hslot_out i hmi] at heq
          exact (h4 j hj i hi).mp heq
      · intro heq
        have hdd : t.dir.getD i 0 = t.dir.getD j 0 := (h4 j hj i hi).mpr heq
        have hmi : ¬(i % 2 ^ L = r % 2 ^ L) := by
          intro hmi
          have hir : t.dir.getD i 0 = t.dir.getD r 0 := (hragree i hi).mpr hmi
          have hjr : t.dir.getD j 0 = t.dir.getD r 0 := by rw [← hdd, hir]
          exact hm ((hragree j hj).mp hjr)
        rw [hslot_out i hmi, hdd]
  · intro j hj p hp
    rw [hSlen] at hj
    by_cases hm : j % 2 ^ L = r % 2 ^ L
    · have hkeysr : ∀ q ∈ (ehtBucketAt t r).list, h q.1 % 2 ^ L = r % 2 ^ L := by
        intro q hq
        exact h5 r hr q hq
      cases hb : Nat.testBit j L
      · rw [hbAt0 j hj hm hb] at hp ⊢
        rw [hB0d]
        rcases hm0 p hp with hnil | ⟨q, hq, hk, hbit⟩
        · exact absurd hnil (List.not_mem_nil p)
        · rw [mod_pow_succ_iff]
          refine ⟨?_, ?_⟩
          · rw [hk, hkeysr q hq, hm]
          · rw [hk, hbit, hb]
      · rw [hbAt1 j hj hm hb] at hp ⊢
        rw [hB1d]
        rcases hm1 p hp with hnil | ⟨q, hq, hk, hbit⟩
        · exact absurd hnil (List.not_mem_nil p)
        · rw [mod_pow_succ_iff]
          refine ⟨?_, ?_⟩
          · rw [hk, hkeysr q hq, hm]
          · rw [hk, hbit, hb]
    · rw [hbAtOut j hj hm] at hp ⊢
      exact h5 j hj p hp

theorem ehtDouble_bucketAt {V : Type} (t : EHT V) (i : Nat) (hi : i < t.dir.length) :
    ehtBucketAt (ehtDouble t) i = ehtBucketAt t i := by
  simp only [ehtBucketAt, ehtDouble]
  rw [getD_append_left _ _ _ _ hi]

/-- A successful in-bucket insert (the loop exit of `Insert`) preserves
the directory invariants: the inserted key hashes to the residue class
of the slot it was inserted through. -/
theorem ehtWf_insert_step {V : Type} (h : Nat → Nat) (t : EHT V) (k : Nat) (v : V)
    (b2 : EBucket V) (hwf : EHTWf h t)
    (hins : ebInsert (t.store.getD (t.dir.getD (ehtIndexOf h t.globalDepth k) 0) ebDefault) k v
      = some b2) :
    EHTWf h { t with store := t.store.set (t.dir.getD (ehtIndexOf h t.globalDepth k) 0) b2 } := by
  obtain ⟨h1, h2, h3, h4, h5⟩ := hwf
  have hilt : ehtIndexOf h t.globalDepth k < t.dir.length := by
    rw [h1]; exact Nat.mod_lt _ (two_pow_pos _)
  have hidlt : t.dir.getD (ehtIndexOf h t.globalDepth k) 0 < t.store.length := h2 _ hilt
  obtain ⟨hdep2, hcap2, hmem2⟩ := ebInsert_mem _ k v b2 hins
  have hbAt : ∀ j, ehtBucketAt { t with
        store := t.store.set (t.dir.getD (ehtIndexOf h t.globalDepth k) 0) b2 } j =
      (if t.dir.getD j 0 = t.dir.getD (ehtIndexOf h t.globalDepth k) 0 then b2
        else ehtBucketAt t j) := by
    intro j
    simp only [ehtBucketAt]
    by_cases hc : t.dir.getD j 0 = t.dir.getD (ehtIndexOf h t.globalDepth k) 0
    · rw [if_pos hc, hc, getD_set_self _ _ _ _ hidlt]
    · rw [if_neg hc, getD_set_ne _ _ _ _ _ (fun he => hc he.symm)]
  have hdepth : ∀ j, (ehtBucketAt { t with
        store := t.store.set (t.dir.getD (ehtIndexOf h t.globalDepth k) 0) b2 } j).depth =
      (ehtBucketAt t j).depth := by
    intro j
    rw [hbAt j]
    by_cases hc : t.dir.getD j 0 = t.dir.getD (ehtIndexOf h t.globalDepth k) 0
    · rw [if_pos hc, hdep2, ehtBucketAt, hc]
    · rw [if_neg hc]
  refine ⟨h1, ?_, ?_, ?_, ?_⟩
  · intro j hj
    simpa using h2 j (by simpa using hj)
  · intro j hj
    rw [hdepth j]
    exact h3 j (by simpa using hj)
  · intro j hj i hi
    rw [hdepth j]
    exact h4 j (by simpa using hj) i (by simpa using hi)
  · intro j hj p hp
    rw [hdepth j]
    have hj' : j < t.dir.length := by simpa using hj
    rw [hbAt j] at hp
    by_cases hc : t.dir.getD j 0 = t.dir.getD (ehtIndexOf h t.globalDepth k) 0
    · rw [if_pos hc] at hp
      rcases hmem2 p hp with hk | hmem
      · -- the freshly inserted key: its hash matches the slot's residue
        have hmod : ehtIndexOf h t.globalDepth k % 2 ^ (ehtBucketAt t j).depth =
            j % 2 ^ (ehtBucketAt t j).depth := (h4 j hj' _ hilt).mp hc.symm
        have hMle : (ehtBucketAt t j).depth ≤ t.globalDepth := h3 j hj'
        rw [hk]
        rw [show (ehtBucketAt t j).depth = (ehtBucketAt t (ehtIndexOf h t.globalDepth k)).depth by
          rw [ehtBucketAt, ehtBucketAt, hc]] at hmod hMle ⊢
        rw [← hmod, ← mod_pow_mod hMle]
        rfl
      · have : p ∈ (ehtBucketAt t j).list := by
          rw [ehtBucketAt, hc]
          exact hmem
        exact h5 j hj' p this
    · rw [if_neg hc] at hp
      exact h5 j hj' p hp

/-- `Insert` — any number of loop iterations — preserves the directory
invariants. -/
theorem ehtWf_insertFuel {V : Type} (h : Nat → Nat) (fuel : Nat) (t : EHT V)
    (k : Nat) (v : V) (t2 : EHT V) (hwf : EHTWf h t)
    (hins : ehtInsertFuel h fuel t k v = some t2) : EHTWf h t2 := by
  induction fuel generalizing t with
  | zero => exact absurd hins (by simp [ehtInsertFuel])
  | succ fuel ih =>
    rw [ehtInsertFuel] at hins
    have hilt : ehtIndexOf h t.globalDepth k < t.dir.length := by
      rw [hwf.len_eq]; exact Nat.mod_lt _ (two_pow_pos _)
    cases heq : ebInsert (t.store.getD (t.dir.getD (ehtIndexOf h t.globalDepth k) 0) ebDefault) k v with
    | some b2 =>
      rw [heq] at hins
      simp only [Option.some.injEq] at hins
      rw [← hins]
      exact ehtWf_insert_step h t k v b2 hwf heq
    | none =>
      rw [heq] at hins
      by_cases hdeq : (t.store.getD (t.dir.getD (ehtIndexOf h t.globalDepth k) 0) ebDefault).depth
          = t.globalDepth
      · rw [if_pos hdeq] at hins
        refine ih (ehtRedistribute h (ehtDouble t) (ehtIndexOf h t.globalDepth k)) ?_ hins
        apply ehtWf_redistribute h (ehtDouble t) _ (ehtWf_double h t hwf)
        · simp only [ehtDouble, List.length_append]
          omega
        · rw [ehtDouble_bucketAt t _ hilt]
          have : (ehtBucketAt t (ehtIndexOf h t.globalDepth k)).depth ≤ t.globalDepth :=
            hwf.depth_le _ hilt
          simp only [ehtDouble]
          omega
      · rw [if_neg hdeq] at hins
        refine ih (ehtRedistribute h t (ehtIndexOf h t.globalDepth k)) ?_ hins
        apply ehtWf_redistribute h t _ hwf hilt
        have : (ehtBucketAt t (ehtIndexOf h t.globalDepth k)).depth ≤ t.globalDepth :=
          hwf.depth_le _ hilt
        have hne : (ehtBucketAt t (ehtIndexOf h t.globalDepth k)).depth ≠ t.globalDepth := hdeq
        omega

/-- States of the extendible hash table reachable from a freshly
constructed table by the public mutating calls (`Insert` runs that were
given enough fuel to return, and `Remove`; `Find` and the depth/bucket
getters do not change the state). -/
inductive EHTReach {V : Type} (h : Nat → Nat) (bsz : Nat) : EHT V → Prop where
  | init : EHTReach h bsz (ehtInit V bsz)
  | insertStep (t t2 : EHT V) (fuel k : Nat) (v : V) (ht : EHTReach h bsz t)
      (hins : ehtInsertFuel h fuel t k v = some t2) : EHTReach h bsz t2
  | removeStep (t : EHT V) (k : Nat) (ht : EHTReach h bsz t) :
      EHTReach h bsz (ehtRemove h t k).2

theorem ehtReach_wf {V : Type} (h : Nat → Nat) (bsz : Nat) (t : EHT V)
    (hreach : EHTReach h bsz t) : EHTWf h t := by
  induction hreach with
  | init => exact ehtWf_init h bsz
  | insertStep t t2 fuel k v ht hins ih => exact ehtWf_insertFuel h fuel t k v t2 ih hins
  | removeStep t k ht ih => exact ehtWf_remove h t k ih

/-- Number of directory slots referencing bucket id `id`. -/
def ehtSlotsRef {V : Type} (t : EHT V) (id : Nat) : Nat :=
  ((List.range t.dir.length).filter (fun i => t.dir.getD i 0 == id)).length

/-- C4: after every sequence of public hash-table calls, the directory
invariants hold — the directory length equals `2 ^ G`; every referenced
bucket's local depth `L` satisfies `L ≤ G`; exactly `2 ^ (G - L)`
directory slots reference each bucket; and the slot
`dir[hash(k) & ((1 << G) - 1)]` references the bucket holding each
stored key `k`, so that bucket is the unique one containing `k`. -/
theorem eht_directory_invariants {V : Type} (h : Nat → Nat) (bsz : Nat) (t : EHT V)
    (hreach : EHTReach h bsz t) :
    t.dir.length = 2 ^ t.globalDepth ∧
    (∀ j < t.dir.length, (ehtBucketAt t j).depth ≤ t.globalDepth) ∧
    (∀ j < t.dir.length,
      ehtSlotsRef t (t.dir.getD j 0) = 2 ^ (t.globalDepth - (ehtBucketAt t j).depth)) ∧
    (∀ j < t.dir.length, ∀ p ∈ (ehtBucketAt t j).list,
      t.dir.getD (ehtIndexOf h t.globalDepth p.1) 0 = t.dir.getD j 0) := by
  obtain ⟨h1, h2, h3, h4, h5⟩ := ehtReach_wf h bsz t hreach
  refine ⟨h1, h3, ?_, ?_⟩
  · intro j hj
    have hM : (ehtBucketAt t j).depth ≤ t.globalDepth := h3 j hj
    have hcongr : (List.range t.dir.length).filter
          (fun i => t.dir.getD i 0 == t.dir.getD j 0) =
        (List.range t.dir.length).filter
          (fun i => i % 2 ^ (ehtBucketAt t j).depth == j % 2 ^ (ehtBucketAt t j).depth) := by
      apply List.filter_congr
      intro i hi
      rw [List.mem_range] at hi
      have hiff := h4 j hj i hi
      by_cases hc : t.dir.getD i 0 = t.dir.getD j 0
      · rw [beq_iff_eq.mpr hc, beq_iff_eq.mpr (hiff.mp hc)]
      · have hc2 : ¬(i % 2 ^ (ehtBucketAt t j).depth = j % 2 ^ (ehtBucketAt t j).depth) :=
          fun hmm => hc (hiff.mpr hmm)
        rw [beq_eq_false_iff_ne.mpr hc, beq_eq_false_iff_ne.mpr hc2]
    rw [ehtSlotsRef, hcongr]
    have hsplit : t.dir.length =
        2 ^ (ehtBucketAt t j).depth * 2 ^ (t.globalDepth - (ehtBucketAt t j).depth) := by
      rw [h1, ← pow_add]
      congr 1
      omega
    rw [hsplit]
    exact length_filter_mod _ _ _ (Nat.mod_lt _ (two_pow_pos _))
  · intro j hj p hp
    have hM : (ehtBucketAt t j).depth ≤ t.globalDepth := h3 j hj
    have hilt : ehtIndexOf h t.globalDepth p.1 < t.dir.length := by
      rw [h1]; exact Nat.mod_lt _ (two_pow_pos _)
    apply (h4 j hj _ hilt).mpr
    rw [ehtIndexOf, mod_pow_mod hM]
    exact h5 j hj p hp

/-- Witness: the invariants hold at the freshly constructed table. -/
theorem eht_directory_invariants_witness :
    (ehtInit Nat 2).dir.length = 2 ^ (ehtInit Nat 2).globalDepth ∧
    (∀ j < (ehtInit Nat 2).dir.length,
      (ehtBucketAt (ehtInit Nat 2) j).depth ≤ (ehtInit Nat 2).globalDepth) ∧
    (∀ j < (ehtInit Nat 2).dir.length,
      ehtSlotsRef (ehtInit Nat 2) ((ehtInit Nat 2).dir.getD j 0) =
        2 ^ ((ehtInit Nat 2).globalDepth - (ehtBucketAt (ehtInit Nat 2) j).depth)) ∧
    (∀ j < (ehtInit Nat 2).dir.length, ∀ p ∈ (ehtBucketAt (ehtInit Nat 2) j).list,
      (ehtInit Nat 2).dir.getD (ehtIndexOf hid (ehtInit Nat 2).globalDepth p.1) 0 =
        (ehtInit Nat 2).dir.getD j 0) :=
  eht_directory_invariants hid 2 (ehtInit Nat 2) EHTReach.init

/-! ### Upsert semantics of `Insert` (C3) -/

theorem ebFind_upd {V : Type} (k : Nat) (v : V) (l : List (Nat × V))
    (hany : l.any (fun p => p.1 == k) = true) :
    (ebUpd k v l).find? (fun p => p.1 == k) = some (k, v) := by
  induction l with
  | nil => simp at hany
  | cons q rest ih =>
    by_cases hq : q.1 = k
    · rw [ebUpd, if_pos hq]
      rw [List.find?_cons_of_pos _ (by simp)]
    · rw [ebUpd, if_neg hq]
      rw [List.find?_cons_of_neg _ (by simp [hq])]
      apply ih
      simp only [List.any_cons, Bool.or_eq_true] at hany
      rcases hany with hq2 | hrest
      · exact absurd (by simpa using hq2) hq
      · exact hrest

/-- After a successful `Bucket::Insert` of `(k, v)`, `Bucket::Find k`
yields `v`. -/
theorem ebInsert_ebFind {V : Type} (b : EBucket V) (k : Nat) (v : V) (b2 : EBucket V)
    (hins : ebInsert b k v = some b2) : ebFind b2 k = some v := by
  unfold ebInsert at hins
  split at hins
  · exact absurd hins (by simp)
  · split at hins <;> (injection hins with hb; subst hb)
    · rename_i hany
      rw [ebFind, ebFind_upd k v b.list hany]
      rfl
    · rw [ebFind, List.find?_cons_of_pos _ (by simp)]
      rfl

/-- C3: whenever `Insert(k, v)` returns, a subsequent `Find(k)` yields
`v` — upsert semantics, including the case where the bucket was full at
the time of the call (the insert then splits buckets until it
succeeds; it fails only by exhausting fuel, i.e. never returns). -/
theorem eht_insert_upsert {V : Type} (h : Nat → Nat) (fuel : Nat) (t : EHT V)
    (k : Nat) (v : V) (t2 : EHT V)
    (hins : ehtInsertFuel h fuel t k v = some t2) : ehtFind h t2 k = some v := by
  induction fuel generalizing t with
  | zero => exact absurd hins (by simp [ehtInsertFuel])
  | succ fuel ih =>
    rw [ehtInsertFuel] at hins
    cases heq : ebInsert (t.store.getD (t.dir.getD (ehtIndexOf h t.globalDepth k) 0) ebDefault) k v with
    | some b2 =>
      rw [heq] at hins
      simp only [Option.some.injEq] at hins
      have hid : t.dir.getD (ehtIndexOf h t.globalDepth k) 0 < t.store.length := by
        by_contra hge
        rw [List.getD_eq_default _ _ (by omega)] at heq
        have := ebInsert_not_full _ _ _ _ heq
        simp [ebDefault] at this
      rw [← hins, ehtFind]
      simp only
      rw [getD_set_self _ _ _ _ hid]
      exact ebInsert_ebFind _ k v b2 heq
    | none =>
      rw [heq] at hins
      exact ih _ hins

/-- Witness for the upsert theorem: inserting key 5 with value 7 into a
fresh table of bucket size 2 yields a state where `Find 5` returns 7. -/
theorem eht_insert_upsert_witness :
    ehtFind hid (⟨2, 0, 1, [⟨2, 0, [(5, 7)]⟩], [0]⟩ : EHT Nat) 5 = some 7 :=
  eht_insert_upsert hid 1 (ehtInit Nat 2) 5 7 _ (by decide)

/-! ### The spec's hash-split scenario (C8) -/

/-- The spec's §8 scenario 2: bucket size 2, identity integer hash,
insert `(4, "a")`, `(12, "b")`, `(20, "c")` in order (9 units of fuel
generously cover the splits of each call). -/
def c8Run : Option (EHT String) := do
  let t1 ← ehtInsertFuel hid 9 (ehtInit String 2) 4 "a"
  let t2 ← ehtInsertFuel hid 9 t1 12 "b"
  ehtInsertFuel hid 9 t2 20 "c"

/-- Global depth and bucket count immediately after the third insert. -/
def c8Depths : Option (Nat × Nat) :=
  c8Run.map (fun t => (t.globalDepth, t.numBuckets))

/-- Counterexample to C8: the claimed outcome (global depth 2 and 2
buckets) is not what the code produces — 4, 12 and 20 agree on their low
three bits, so the directory must grow to depth 4. -/
theorem c8_split_scenario_counterexample : c8Depths ≠ some (2, 2) := by decide

/-- C8 (amended): after the third insert the global depth is 4 and the
bucket count is 5. -/
theorem c8_split_scenario_amended : c8Depths = some (4, 5) := by decide

/-! ## LRU-K replacer (`lru_k_replacer.cpp`)

State of `LRUKReplacer`.  The C++ `std::unordered_map` members default
to zero / empty / false on first access (`operator[]`), modelled as
total functions.  The iterator maps `less_k_map_` / `k_map_` only cache
list positions and are not modelled separately: erasing through them
erases the (unique) element of the frame.  Member initial values
(`curr_size_`, `current_timestamp_` start at 0) are modelled from the
spec, the class header being outside the sources. -/

structure LRUK where
  replacerSize : Nat
  maxSize : Nat
  k : Nat
  currSize : Nat
  currentTimestamp : Nat
  accessTimes : Nat → Nat
  historyList : Nat → List Nat
  evictable : Nat → Bool
  lruLessK : List Nat
  lruK : List (Nat × Nat)

/-- Pointwise map update, standing for `map[key] = value`. -/
def mupd {α : Type} (m : Nat → α) (i : Nat) (a : α) : Nat → α :=
  fun x => if x = i then a else m x

/-- Constructor `LRUKReplacer(num_frames, k)`:
`replacer_size_ = max_size_ = num_frames`, everything else empty. -/
def lrukInit (numFrames k : Nat) : LRUK :=
  ⟨numFrames, numFrames, k, 0, 0, fun _ => 0, fun _ => [], fun _ => false, [], []⟩

/-- `Evict(&frame)`: scan the young list back to front for an evictable
frame, then the mature list front to back; on success clear the
victim's access count and history, drop it from its list, and decrement
the size.  Returns the chosen frame (or `none`) with the new state. -/
def lrukEvict (s : LRUK) : Option Nat × LRUK :=
  if s.currSize = 0 then (none, s)
  else
    match s.lruLessK.reverse.find? (fun f => s.evictable f) with
    | some f =>
      (some f, { s with
        accessTimes := mupd s.accessTimes f 0
        historyList := mupd s.historyList f []
        lruLessK := s.lruLessK.filter (fun x => !(x == f))
        currSize := s.currSize - 1 })
    | none =>
      match s.lruK.find? (fun p => s.evictable p.1) with
      | some p =>
        (some p.1, { s with
          accessTimes := mupd s.accessTimes p.1 0
          historyList := mupd s.historyList p.1 []
          lruK := s.lruK.eraseP (fun q => s.evictable q.1)
          currSize := s.currSize - 1 })
      | none => (none, s)

/-- `std::upper_bound` insertion into the mature list, ordered by the
second component (the stored Kth timestamp). -/
def lruKInsertUB (l : List (Nat × Nat)) (p : Nat × Nat) : List (Nat × Nat) :=
  match l with
  | [] => [p]
  | q :: rest => if p.2 < q.2 then p :: q :: rest else q :: lruKInsertUB rest p

/-- `RecordAccess(frame)`: reject ids above the configured bound
(`throw`, modelled as `none`); bump the frame's access count and the
global clock and append the timestamp to the history.  A first access
may internally evict when the replacer is at capacity (throwing when
that fails), then joins the young list; the Kth access moves the frame
to the mature list keyed by the history front; later accesses re-push
the timestamp, pop the history front and re-sort the mature entry. -/
def lrukRecordAccess (s : LRUK) (f : Nat) : Option LRUK :=
  if s.replacerSize < f then none
  else
    let at2 := s.accessTimes f + 1
    let ts2 := s.currentTimestamp + 1
    let hist2 := s.historyList f ++ [ts2]
    let s1 := { s with
      accessTimes := mupd s.accessTimes f at2
      currentTimestamp := ts2
      historyList := mupd s.historyList f hist2 }
    if at2 = 1 then
      let step :=
        if s1.currSize = s1.maxSize then
          match lrukEvict s1 with
          | (none, _) => none
          | (some _, s2) => some s2
        else some s1
      step.map (fun s2 => { s2 with
        evictable := mupd s2.evictable f true
        lruLessK := f :: s2.lruLessK
        currSize := s2.currSize + 1 })
    else if at2 = s.k then
      some { s1 with
        lruLessK := s1.lruLessK.erase f
        lruK := lruKInsertUB s1.lruK (f, hist2.headD 0) }
    else if s.k < at2 then
      let hist3 := (hist2 ++ [ts2]).tail
      some { s1 with
        historyList := mupd s1.historyList f hist3
        lruK := lruKInsertUB (s1.lruK.eraseP (fun q => q.1 == f)) (f, hist3.headD 0) }
    else
      some s1

/-- `SetEvictable(frame, set_evictable)`: reject out-of-range ids,
ignore untracked frames, flip the flag and adjust **both** `curr_size_`
and `max_size_` (the source mutates the capacity too). -/
def lrukSetEvictable (s : LRUK) (f : Nat) (flag : Bool) : Option LRUK :=
  if s.replacerSize < f then none
  else if s.accessTimes f = 0 then some s
  else
    let old := s.evictable f
    let s1 := { s with evictable := mupd s.evictable f flag }
    if old && !flag then
      some { s1 with currSize := s1.currSize - 1, maxSize := s1.maxSize - 1 }
    else if !old && flag then
      some { s1 with currSize := s1.currSize + 1, maxSize := s1.maxSize + 1 }
    else
      some s1

/-! ### Replacer claim scenarios -/

/-- One access to frame 1 of a fresh `(N = 7, K = 2)` replacer followed
by `SetEvictable(1, false)`. -/
def c6Run : Option LRUK :=
  (lrukRecordAccess (lrukInit 7 2) 1).bind (fun s => lrukSetEvictable s 1 false)

/-- C6 (failing input evaluated): `SetEvictable(1, false)` on a tracked
frame of a fresh `(7, 2)` replacer drops the capacity `max_size_` from
7 to 6 while flipping the flag and the evictable count — the source
mutates the construction-time capacity, contradicting the claim. -/
theorem c6_setEvictable_mutates_capacity :
    (lrukInit 7 2).maxSize = 7 ∧
      c6Run.map (fun s => (s.maxSize, s.currSize, s.evictable 1)) = some (6, 0, false) :=
  ⟨rfl, rfl⟩

/-- `m` successive accesses to frame 1 of a fresh `(N = 7, K = 2)`
replacer. -/
def c7Run (m : Nat) : Option LRUK :=
  (List.replicate m 1).foldlM (fun s f => lrukRecordAccess s f) (lrukInit 7 2)

/-- C7 (failing input evaluated): with `K = 2`, after the third access
to frame 1 (timestamps 1, 2, 3) its history is `[2, 3, 3]` — three
entries, not at most `K`, with the newest timestamp duplicated (the
source pushes each timestamp twice past the Kth access and pops once);
and after the fifth access the history is `[3, 4, 4, 5, 5]` whose front
3 is stored as the mature sort key although the Kth-most-recent (2nd of
4, 5) access time is 4. -/
theorem c7_history_not_capped_at_k :
    (c7Run 3).map (fun s => (s.historyList 1, s.k)) = some ([2, 3, 3], 2) ∧
      (c7Run 5).map (fun s => (s.historyList 1, s.lruK)) = some ([3, 4, 4, 5, 5], [(1, 3)]) :=
  ⟨rfl, rfl⟩

/-- The spec's §8 scenario 1: `(N = 7, K = 2)`, access frames
`1,2,3,4,5,6,1,2,3,4,5`, then mark frame 6 non-evictable. -/
def c9Run : Option LRUK :=
  ([1, 2, 3, 4, 5, 6, 1, 2, 3, 4, 5].foldlM (fun s f => lrukRecordAccess s f)
    (lrukInit 7 2)).bind (fun s => lrukSetEvictable s 6 false)

/-- Results of the first two `Evict()` calls on that state. -/
def c9Evicts : Option (Option Nat × Option Nat) :=
  c9Run.map (fun s =>
    let e1 := lrukEvict s
    (e1.1, (lrukEvict e1.2).1))

/-- Counterexample to C9: the two evictions do not yield frames 5 then
1.  Frame 5 is accessed twice in the scenario (at timestamps 5 and 11),
so it is mature, not young; the only young frame, 6, is non-evictable. -/
theorem c9_replacer_scenario_counterexample : c9Evicts ≠ some (some 5, some 1) := by
  decide

/-- C9 (amended): the first `Evict()` returns frame 1 (mature, smallest
Kth-most-recent timestamp 1) and the next returns frame 2. -/
theorem c9_replacer_scenario_amended : c9Evicts = some (some 1, some 2) := by
  decide

/-! ## B+-tree index (`b_plus_tree.cpp`, `index_iterator.cpp`)

Keys and user values are `Nat` (the comparator is the natural order:
`comparator_(a, b) < 0` is `a < b`).  Page ids are `Int` with
`INVALID_PAGE_ID = -1` and `HEADER_PAGE_ID = 0`.  A page is a tagged
variant of a leaf record (sorted key/value array plus next-leaf id) or
an internal record (key/child array whose slot 0 is the sentinel
"left-of-everything" pointer, its key unused by lookups).

The leaf/internal page classes themselves are not among the sources;
their accessors (`Init`, `GetSize`, `GetMinSize = ⌈max/2⌉`, `IsRootPage`
as `parent == INVALID`, `Find` by the "largest slot with key ≤ probe"
rule, next-leaf id) are modelled from the spec (§3, §4.C, §6), while
everything in `b_plus_tree.cpp` is transcribed from the source.

The buffer pool is external (spec §6): `FetchPage` pins and returns an
allocated page (`none` models the nullptr dereference on an invalid or
unallocated id), `NewPage` allocates a fresh pinned id, `UnpinPage`
decrements a pin count, and the header page holds name → root-id
records. -/

inductive BTNodeData where
  | leafNode (entries : List (Nat × Nat)) (next : Int)
  | internalNode (entries : List (Nat × Int))
  deriving Repr, DecidableEq

structure BTPage where
  pageId : Int
  parentId : Int
  maxSize : Nat
  data : BTNodeData
  deriving Repr, DecidableEq

/-- `GetSize()`: the number of occupied slots (slot 0 of an internal
page counts, as in the source). -/
def BTPage.size (pg : BTPage) : Nat :=
  match pg.data with
  | .leafNode entries _ => entries.length
  | .internalNode entries => entries.length

/-- Modelled from the spec: `GetMinSize()` is `⌈max/2⌉`. -/
def btMinSize (maxSize : Nat) : Nat := (maxSize + 1) / 2

/-- Modelled from the spec: `IsLeafPage()` via the page-kind tag. -/
def BTPage.isLeaf (pg : BTPage) : Bool :=
  match pg.data with
  | .leafNode _ _ => true
  | .internalNode _ => false

/-- Modelled from the spec: `IsRootPage()` — the parent id is the
`INVALID` sentinel. -/
def BTPage.isRoot (pg : BTPage) : Bool := pg.parentId == -1

/-- Modelled from the spec: a leaf's `GetNextPageId()` (the sentinel for
an internal page, on which the source never calls it). -/
def BTPage.nextId (pg : BTPage) : Int :=
  match pg.data with
  | .leafNode _ next => next
  | .internalNode _ => -1

/-- Modelled from the spec: `LeafPage::Find` — equality search in the
leaf array. -/
def leafLookup (entries : List (Nat × Nat)) (key : Nat) : Option Nat :=
  (entries.find? (fun p => p.1 == key)).map (fun p => p.2)

/-- Modelled from the spec: `InternalPage::Find` — the child at the
largest slot `j ∈ [1, size)` whose key is `≤ key`, or slot 0 when no
such slot exists. -/
def internalChild (entries : List (Nat × Int)) (key : Nat) : Int :=
  let j := (List.range entries.length).foldl
    (fun acc j => if 1 ≤ j ∧ (entries.getD j (0, -1)).1 ≤ key then j else acc) 0
  (entries.getD j (0, -1)).2

/-- The external buffer pool (spec §6): allocated pages by id, pin
counts by id, the header page's name → root-id records, and the next
fresh page id. -/
structure BPool where
  pages : List (Int × BTPage)
  pins : List (Int × Nat)
  headerRecords : List (String × Int)
  nextPageId : Int
  deriving Repr, DecidableEq

def plookup {α : Type} (l : List (Int × α)) (i : Int) : Option α :=
  (l.find? (fun p => p.1 == i)).map (fun p => p.2)

def pupdate {α : Type} (l : List (Int × α)) (i : Int) (a : α) : List (Int × α) :=
  match l with
  | [] => [(i, a)]
  | p :: rest => if p.1 = i then (i, a) :: rest else p :: pupdate rest i a

def getPin (bp : BPool) (i : Int) : Nat := (plookup bp.pins i).getD 0

def bumpPin (bp : BPool) (i : Int) : BPool :=
  { bp with pins := pupdate bp.pins i (getPin bp i + 1) }

/-- `UnpinPage(page_id, dirty)`: decrement the pin count (never below
zero); the dirty flag does not affect the pin accounting. -/
def unpinPage (bp : BPool) (i : Int) (_dirty : Bool) : BPool :=
  { bp with pins := pupdate bp.pins i (getPin bp i - 1) }

/-- `FetchPage(page_id)`: pin and return the page; `none` models the
source dereferencing the null frame returned for `INVALID_PAGE_ID` or
an unallocated id. -/
def fetchPage (bp : BPool) (i : Int) : Option (BTPage × BPool) :=
  (plookup bp.pages i).map (fun pg => (pg, bumpPin bp i))

/-- `NewPage(&page_id)`: allocate a fresh pinned id (the frame's bytes
are given content by the caller's `Init`, modelled by the first
`writePage`). -/
def newPage (bp : BPool) : Int × BPool :=
  (bp.nextPageId,
    { bp with pins := pupdate bp.pins bp.nextPageId (getPin bp bp.nextPageId + 1)
              nextPageId := bp.nextPageId + 1 })

/-- In-place mutation of a pinned page. -/
def writePage (bp : BPool) (i : Int) (pg : BTPage) : BPool :=
  { bp with pages := pupdate bp.pages i pg }

/-- Pool state with no pages, no pins, and ids handed out from 1
(`HEADER_PAGE_ID = 0` is reserved; its records live in
`headerRecords`). -/
def bpoolInit : BPool := ⟨[], [], [], 1⟩

/-- Sum of all pin counts. -/
def totalPins (bp : BPool) : Nat := (bp.pins.map (fun p => p.2)).sum

structure BTree where
  indexName : String
  rootPageId : Int
  curSize : Nat
  leafMax : Nat
  internalMax : Nat
  deriving Repr, DecidableEq

/-- Constructor: `root_page_id_ = INVALID_PAGE_ID`, zero items. -/
def btInit (name : String) (leafMax internalMax : Nat) : BTree :=
  ⟨name, -1, 0, leafMax, internalMax⟩

def supdate {α : Type} (l : List (String × α)) (i : String) (a : α) : List (String × α) :=
  match l with
  | [] => [(i, a)]
  | p :: rest => if p.1 = i then (i, a) :: rest else p :: supdate rest i a

/-- `UpdateRootPageId(insert_record)`: fetch the header page, insert or
update the name → root-id record, unpin the header dirty. -/
def btUpdateRootPageId (tree : BTree) (bp : BPool) (_insertRecord : Bool) : BPool :=
  let bp1 := bumpPin bp 0
  let bp2 := { bp1 with headerRecords := supdate bp1.headerRecords tree.indexName tree.rootPageId }
  unpinPage bp2 0 true

/-- The descent loop shared by `GetValue`, `TreeTraversal` and
`Begin(key)`: while the current (pinned) page is internal, fetch the
child given by `InternalPage::Find` and unpin the parent (not dirty).
Fuel bounds the loop; the final leaf stays pinned. -/
def btDescend : Nat → BPool → BTPage → Nat → Option (BTPage × BPool)
  | 0, _, _, _ => none
  | fuel + 1, bp, pg, key =>
    match pg.data with
    | .leafNode _ _ => some (pg, bp)
    | .internalNode entries =>
      match fetchPage bp (internalChild entries key) with
      | none => none
      | some (pg2, bp2) => btDescend fuel (unpinPage bp2 pg.pageId false) pg2 key

/-- `GetValue(key)`: fetch the root page unconditionally (the source
has **no** empty-tree check: on `root_page_id_ == INVALID_PAGE_ID` it
fetches the invalid id and dereferences the null frame — `none` here),
descend to the leaf, search it and unpin it (not dirty).  The result is
`some (found?, pool)` when no crash occurred. -/
def btGetValue (fuel : Nat) (tree : BTree) (bp : BPool) (key : Nat) :
    Option (Option Nat × BPool) :=
  match fetchPage bp tree.rootPageId with
  | none => none
  | some (root, bp1) =>
    match btDescend fuel bp1 root key with
    | none => none
    | some (leafPg, bp2) =>
      match leafPg.data with
      | .leafNode entries _ => some (leafLookup entries key, unpinPage bp2 leafPg.pageId false)
      | .internalNode _ => none

/-- `TreeTraversal(key, &bPage)`: same descent as `GetValue`, but the
leaf stays pinned and is handed to the caller together with the flag —
`true` when the key is absent, `false` when it was found. -/
def btTreeTraversal (fuel : Nat) (tree : BTree) (bp : BPool) (key : Nat) :
    Option (Bool × BTPage × BPool) :=
  match fetchPage bp tree.rootPageId with
  | none => none
  | some (root, bp1) =>
    match btDescend fuel bp1 root key with
    | none => none
    | some (leafPg, bp2) =>
      match leafPg.data with
      | .leafNode entries _ => some ((leafLookup entries key).isNone, leafPg, bp2)
      | .internalNode _ => none

/-- `Remove(key)`: return immediately on an empty tree; otherwise walk
to the leaf with `TreeTraversal` and do nothing with it — the delete
path of the source is a stub (`SimpleDelete` has an empty body), so no
entry is removed, the item count is not decremented, and the leaf the
traversal pinned is never unpinned. -/
def btRemove (fuel : Nat) (tree : BTree) (bp : BPool) (key : Nat) :
    Option (BTree × BPool) :=
  if tree.rootPageId = -1 then some (tree, bp)
  else
    match btTreeTraversal fuel tree bp key with
    | none => none
    | some (_, _, bp2) => some (tree, bp2)

/-! ### Insertion (`SimpleInsert`, `SimpleSplit`, `MultipleSplit`,
`Insert`)

A "promote pair" travels through `SimpleInsert`/`SimpleSplit` as a
`MappingType*` that the source reinterprets as leaf or internal data
according to the target page's kind; the model carries the two readings
as a sum and dispatches on the page kind like the source does (the
mismatched combinations are unreachable from the call sites). -/

/-- `std::upper_bound` + shift of `SimpleInsert`: place the new pair
before the first entry whose key exceeds it. -/
def upbInsert {β : Type} (l : List (Nat × β)) (p : Nat × β) : List (Nat × β) :=
  match l with
  | [] => [p]
  | q :: rest => if p.1 < q.1 then p :: q :: rest else q :: upbInsert rest p

/-- One insertion step of the scratch-array `std::sort` model. -/
def sortIns {β : Type} (p : Nat × β) : List (Nat × β) → List (Nat × β)
  | [] => [p]
  | q :: rest => if p.1 ≤ q.1 then p :: q :: rest else q :: sortIns p rest

/-- `std::sort` of the split scratch array under the key comparator
(the source's keys are pairwise distinct, so any sort agrees with this
insertion sort). -/
def sortByKey {β : Type} (l : List (Nat × β)) : List (Nat × β) :=
  l.foldr sortIns []

/-- `SimpleInsert(pair, bPage)`: sorted in-place insert into a page
with room (the source's size-0 / size-1 special cases coincide with the
general `upper_bound` path), then unpin the page dirty. -/
def btSimpleInsert (bp : BPool) (pg : BTPage) (pair : (Nat × Nat) ⊕ (Nat × Int)) : BPool :=
  match pg.data, pair with
  | .leafNode entries next, .inl p =>
    let pg2 := { pg with data := .leafNode (upbInsert entries p) next }
    unpinPage (writePage bp pg.pageId pg2) pg.pageId true
  | .internalNode entries, .inr p =>
    let entries2 := match entries with
      | [] => [p]
      | s :: rest => s :: upbInsert rest p
    let pg2 := { pg with data := .internalNode entries2 }
    unpinPage (writePage bp pg.pageId pg2) pg.pageId true
  | _, _ => bp

/-- Child re-parenting loop of an internal split: fetch each child of
the new right page, point its parent at the new page, unpin it dirty. -/
def btReparent (bp : BPool) (ids : List Int) (parent : Int) : Option BPool :=
  match ids with
  | [] => some bp
  | c :: rest =>
    match fetchPage bp c with
    | none => none
    | some (cpg, bp1) =>
      btReparent (unpinPage (writePage bp1 c { cpg with parentId := parent }) c true) rest parent

/-- The node-splitting block shared verbatim by `SimpleSplit` and
`MultipleSplit`: allocate the right sibling, sort the old entries plus
the incoming pair into a scratch array, keep the first `MinSize`
entries, move the rest to the sibling (linking leaf next-pointers, or
re-parenting the moved children of an internal page). -/
def btSplitNode (tree : BTree) (bp : BPool) (pair : (Nat × Nat) ⊕ (Nat × Int))
    (bPage : BTPage) : Option (BTPage × BTPage × Int × BPool) :=
  match bPage.data, pair with
  | .leafNode entries _, .inl p =>
    let (newId, bpA) := newPage bp
    let minSize := btMinSize tree.leafMax
    let tmp := sortByKey ((entries.take tree.leafMax) ++ [p])
    let newpage : BTPage := ⟨newId, -1, tree.leafMax, .leafNode (tmp.drop minSize) bPage.nextId⟩
    let bPage2 := { bPage with data := .leafNode (tmp.take minSize) newId }
    some (bPage2, newpage, newId, writePage (writePage bpA bPage.pageId bPage2) newId newpage)
  | .internalNode entries, .inr p =>
    let (newId, bpA) := newPage bp
    let minSize := btMinSize tree.internalMax
    let tmp := sortByKey ((entries.take tree.internalMax) ++ [p])
    let newpage : BTPage := ⟨newId, -1, tree.internalMax, .internalNode (tmp.drop minSize)⟩
    match btReparent (writePage bpA newId newpage) ((tmp.drop minSize).map (fun q => q.2)) newId with
    | none => none
    | some bpB =>
      let bPage2 := { bPage with data := .internalNode (tmp.take minSize) }
      some (bPage2, newpage, newId, writePage bpB bPage.pageId bPage2)
  | _, _ => none

/-- The promote pair's key: the first entry of the new right page (for
an internal page that is the separator sitting in its sentinel slot). -/
def btPromotedKey (pg : BTPage) : Nat :=
  match pg.data with
  | .leafNode entries _ => (entries.headD (0, 0)).1
  | .internalNode entries => (entries.headD (0, -1)).1

/-- `SimpleSplit(pair, bPage, parent_page)`: split the node; when there
is no parent, allocate a new internal root whose slot 0 points at the
old page and persist the new root id; set both halves' parent pointers;
unpin the two halves dirty; insert the promote pair into the parent via
`SimpleInsert` (which unpins the parent). -/
def btSimpleSplit (tree : BTree) (bp : BPool) (pair : (Nat × Nat) ⊕ (Nat × Int))
    (bPage : BTPage) (parentOpt : Option BTPage) : Option (BTree × BPool) :=
  match btSplitNode tree bp pair bPage with
  | none => none
  | some (bPage2, newpage, newId, bp1) =>
    let rootStep : BTree × BPool × BTPage :=
      match parentOpt with
      | some ppg => (tree, bp1, ppg)
      | none =>
        let (rootId, bp2) := newPage bp1
        let rootPg : BTPage := ⟨rootId, -1, tree.internalMax, .internalNode [(0, bPage.pageId)]⟩
        let tree2 := { tree with rootPageId := rootId }
        (tree2, btUpdateRootPageId tree2 (writePage bp2 rootId rootPg) false, rootPg)
    match rootStep with
    | (tree2, bp3, parentPg) =>
      let bPage3 := { bPage2 with parentId := parentPg.pageId }
      let newpage2 := { newpage with parentId := parentPg.pageId }
      let bp4 := writePage (writePage bp3 bPage.pageId bPage3) newId newpage2
      let newPair : Nat × Int := (btPromotedKey newpage, newId)
      let bp5 := unpinPage (unpinPage bp4 newId true) bPage.pageId true
      some (tree2, btSimpleInsert bp5 parentPg (.inr newPair))

/-- `MultipleSplit(pair, bPage, parent_page)`: split the node, parent
the new half (the old half keeps its parent pointer), and propagate the
promote pair: into a root parent via `SimpleSplit` with no grandparent,
into a grandparent with room via `SimpleSplit`, else recursively. -/
def btMultipleSplit (tree : BTree) : Nat → BPool → ((Nat × Nat) ⊕ (Nat × Int)) → BTPage →
    BTPage → Option (BTree × BPool)
  | 0, _, _, _, _ => none
  | fuel + 1, bp, pair, bPage, parentPg =>
    match btSplitNode tree bp pair bPage with
    | none => none
    | some (_, newpage, newId, bp1) =>
      let newpage2 := { newpage with parentId := parentPg.pageId }
      let bp2 := writePage bp1 newId newpage2
      let newPair : Nat × Int := (btPromotedKey newpage, newId)
      if parentPg.isRoot then
        let bp3 := unpinPage (unpinPage bp2 newId true) bPage.pageId true
        btSimpleSplit tree bp3 (.inr newPair) parentPg none
      else
        match fetchPage bp2 parentPg.parentId with
        | none => none
        | some (gp, bp3) =>
          let bp4 := unpinPage (unpinPage bp3 newId true) bPage.pageId true
          if gp.size < gp.maxSize then
            btSimpleSplit tree bp4 (.inr newPair) parentPg (some gp)
          else
            btMultipleSplit tree fuel bp4 (.inr newPair) parentPg gp

/-- `Insert(key, value)`: create a root leaf when the tree is empty and
persist its id; walk to the leaf; a duplicate key unpins and returns
`false`; with room, `SimpleInsert` and bump the item count; a full leaf
splits (directly, through a parent with room, or recursively). -/
def btInsert (fuel : Nat) (tree : BTree) (bp : BPool) (key value : Nat) :
    Option (Bool × BTree × BPool) :=
  let step1 : BTree × BPool :=
    if tree.rootPageId = -1 then
      let (pid, bp1) := newPage bp
      let tree1 := { tree with rootPageId := pid }
      let rootLeaf : BTPage := ⟨pid, -1, tree.leafMax, .leafNode [] (-1)⟩
      let bp2 := btUpdateRootPageId tree1 (writePage bp1 pid rootLeaf) true
      (tree1, unpinPage bp2 pid true)
    else (tree, bp)
  match step1 with
  | (tree1, bp1) =>
    match btTreeTraversal fuel tree1 bp1 key with
    | none => none
    | some (absent, leafPg, bp2) =>
      if !absent then
        some (false, tree1, unpinPage bp2 leafPg.pageId false)
      else
        let pair : (Nat × Nat) ⊕ (Nat × Int) := .inl (key, value)
        if leafPg.size < leafPg.maxSize then
          some (true, { tree1 with curSize := tree1.curSize + 1 }, btSimpleInsert bp2 leafPg pair)
        else if leafPg.isRoot then
          match btSimpleSplit tree1 bp2 pair leafPg none with
          | none => none
          | some (tree2, bp3) => some (true, { tree2 with curSize := tree2.curSize + 1 }, bp3)
        else
          match fetchPage bp2 leafPg.parentId with
          | none => none
          | some (ppg, bp3) =>
            if ppg.size < ppg.maxSize then
              match btSimpleSplit tree1 bp3 pair leafPg (some ppg) with
              | none => none
              | some (tree2, bp4) => some (true, { tree2 with curSize := tree2.curSize + 1 }, bp4)
            else
              match btMultipleSplit tree1 fuel bp3 pair leafPg ppg with
              | none => none
              | some (tree2, bp4) => some (true, { tree2 with curSize := tree2.curSize + 1 }, bp4)

/-! ### Range iterator (`index_iterator.cpp`) -/

/-- `IndexIterator` state: the page id, the slot index, and the leaf
page pointer (`none` models the null pointer stored for the `End`
sentinel). -/
structure BTIter where
  pageId : Int
  indexInPage : Int
  page : Option BTPage
  deriving Repr, DecidableEq

/-- The iterator constructor `IndexIterator(page_id, index, bufferpool)`:
fetch (and pin) the page unless the id is the `INVALID` sentinel, in
which case the stored pointer is null. -/
def btIterMk (bp : BPool) (pid : Int) (idx : Int) : Option (BTIter × BPool) :=
  if pid = -1 then some (⟨pid, idx, none⟩, bp)
  else
    match fetchPage bp pid with
    | none => none
    | some (pg, bp2) => some (⟨pid, idx, some pg⟩, bp2)

/-- `End()`: the sentinel iterator `(INVALID_PAGE_ID, -1)` with a null
page pointer. -/
def btEndIter : BTIter := ⟨-1, -1, none⟩

/-- `IsEnd()`: `index == page->GetSize() - 1 && page->GetNextPageId() ==
INVALID`; calling it on the `End` sentinel dereferences the null page
pointer (`none`). -/
def btIterIsEnd (it : BTIter) : Option Bool :=
  it.page.map (fun pg => decide (it.indexInPage = (pg.size : Int) - 1 ∧ pg.nextId = -1))

/-- `operator*`: the entry at the current slot; null page pointer or an
out-of-range slot (undefined behaviour in the source) is `none`. -/
def btIterDeref (it : BTIter) : Option (Nat × Nat) :=
  it.page.bind (fun pg =>
    match pg.data with
    | .leafNode entries _ =>
      if 0 ≤ it.indexInPage then entries.get? it.indexInPage.toNat else none
    | .internalNode _ => none)

/-- `operator==`: iterators are compared by `(page_id, index)` only —
the page pointer is not consulted, so this is safe on `End`. -/
def btIterEqb (a b : BTIter) : Bool :=
  a.pageId == b.pageId && a.indexInPage == b.indexInPage

/-- `~IndexIterator()`: unpin the current page (dirty). -/
def btIterDestroy (bp : BPool) (it : BTIter) : BPool :=
  unpinPage bp it.pageId true

/-- `operator++`: advance within the leaf; at its last slot move to the
next leaf (fetch it, unpin the previous one) or become the `End`
sentinel. -/
def btIterInc (bp : BPool) (it : BTIter) : Option (BTIter × BPool) :=
  if it.pageId = -1 then some (it, bp)
  else
    match it.page with
    | none => none
    | some pg =>
      if it.indexInPage < (pg.size : Int) - 1 then
        some ({ it with indexInPage := it.indexInPage + 1 }, bp)
      else
        let nid := pg.nextId
        if nid = -1 then some (⟨-1, -1, none⟩, unpinPage bp it.pageId false)
        else
          match fetchPage bp nid with
          | none => none
          | some (pg2, bp2) => some (⟨nid, 0, some pg2⟩, unpinPage bp2 it.pageId false)

/-- `Begin()`: descend the leftmost path (`ValueAt(0)`) to the leftmost
leaf, then construct the iterator at slot 0 (whose constructor fetches
the leaf again — the descent's pin on it is never released). -/
def btBeginLoop : Nat → BPool → BTPage → Option (BTIter × BPool)
  | 0, _, _ => none
  | fuel + 1, bp, pg =>
    match pg.data with
    | .leafNode _ _ => btIterMk bp pg.pageId 0
    | .internalNode entries =>
      match fetchPage bp ((entries.getD 0 (0, -1)).2) with
      | none => none
      | some (pg2, bp2) => btBeginLoop fuel (unpinPage bp2 pg.pageId false) pg2

def btBegin (fuel : Nat) (tree : BTree) (bp : BPool) : Option (BTIter × BPool) :=
  match fetchPage bp tree.rootPageId with
  | none => none
  | some (root, bp1) => btBeginLoop fuel bp1 root

/-! ### B+-tree claim scenarios -/

/-- A fresh tree (`leaf_max = internal_max = 4`) after `Insert(1, 10)`. -/
def btRunIns : Option (BTree × BPool) :=
  (btInsert 9 (btInit "idx" 4 4) bpoolInit 1 10).map (fun r => (r.2.1, r.2.2))

/-- ... followed by `Remove(1)`. -/
def btRunRem : Option (BTree × BPool) :=
  btRunIns.bind (fun st => btRemove 9 st.1 st.2 1)

/-- C1 (failing input evaluated): after `Insert(1, 10)` and `Remove(1)`,
`GetValue(1)` still returns 10 and the item count is still 1 — the
source's delete path is a stub (`SimpleDelete` is empty and `Remove`
discards the traversal result), so nothing is deleted and the count is
not decremented.  (Only the trivial half of the claim holds: removing
an absent key leaves the mapping unchanged.) -/
theorem c1_remove_never_deletes :
    (btRunRem.bind (fun st => (btGetValue 9 st.1 st.2 1).map (fun r => r.1))) = some (some 10) ∧
      btRunRem.map (fun st => st.1.curSize) = some 1 :=
  ⟨rfl, rfl⟩

/-- C2 (failing input evaluated): `Insert(1, 10)` on a fresh tree leaves
every pin count at zero, but the following `Remove(1)` leaves the leaf
(= root) page with pin count 1: `Remove`'s `TreeTraversal` hands back
the still-pinned leaf and `Remove` never unpins it. -/
theorem c2_remove_breaks_pin_balance :
    btRunIns.map (fun st => totalPins st.2) = some 0 ∧
      btRunRem.map (fun st => (totalPins st.2, getPin st.2 st.1.rootPageId)) = some (1, 1) :=
  ⟨rfl, rfl⟩

/-- C5: `GetValue` has no empty-tree guard — on a tree whose root page
id is the `INVALID` sentinel it fetches page `-1` from the buffer pool
and dereferences the null result (the crash, `none`), instead of
returning "not found" (`some (none, _)`). -/
theorem c5_getValue_missing_empty_guard (fuel k : Nat) (t : BTree) (bp : BPool)
    (hroot : t.rootPageId = -1) (hinv : plookup bp.pages (-1) = none) :
    btGetValue fuel t bp k = none := by
  rw [btGetValue, hroot]
  rw [show fetchPage bp (-1) = none by rw [fetchPage, hinv]; rfl]

/-- Witness: the crash on a freshly constructed tree and pool. -/
theorem c5_getValue_missing_empty_guard_witness :
    btGetValue 9 (btInit "idx" 4 4) bpoolInit 5 = none :=
  c5_getValue_missing_empty_guard 9 5 (btInit "idx" 4 4) bpoolInit rfl rfl

/-- C10: on the last slot of a leaf whose next pointer is `INVALID`,
`IsEnd()` is true although the slot holds a valid, dereferenceable
entry; the `End()` sentinel stores a null page pointer, so `IsEnd`
and dereference on it hit the null pointer (`none`), and only
`operator==` — which compares `(page_id, index)` without touching the
pointer — detects it. -/
theorem c10_iterator_end_semantics :
    (∀ (pid parent : Int) (maxS : Nat) (entries : List (Nat × Nat)),
      0 < entries.length →
      btIterIsEnd ⟨pid, (entries.length : Int) - 1,
        some ⟨pid, parent, maxS, .leafNode entries (-1)⟩⟩ = some true ∧
      (btIterDeref ⟨pid, (entries.length : Int) - 1,
        some ⟨pid, parent, maxS, .leafNode entries (-1)⟩⟩).isSome = true) ∧
    (∀ bp : BPool, btIterMk bp (-1) (-1) = some (btEndIter, bp)) ∧
    btEndIter.page = none ∧
    btIterIsEnd btEndIter = none ∧
    btIterDeref btEndIter = none ∧
    btIterEqb btEndIter btEndIter = true := by
  refine ⟨?_, ?_, rfl, rfl, rfl, rfl⟩
  · intro pid parent maxS entries hlen
    constructor
    · simp [btIterIsEnd, BTPage.size, BTPage.nextId]
    · have hidx : ((entries.length : Int) - 1).toNat = entries.length - 1 := by omega
      have hlt : entries.length - 1 < entries.length := by omega
      have h0 : (0 : Int) ≤ (entries.length : Int) - 1 := by omega
      show (if (0 : Int) ≤ (entries.length : Int) - 1 then
        entries.get? ((entries.length : Int) - 1).toNat else none).isSome = true
      rw [if_pos h0, hidx, List.get?_eq_get hlt]
      rfl
  · intro bp
    rw [btIterMk, if_pos rfl]
    rfl

/-- Witness for the iterator theorem at a one-entry leaf. -/
theorem c10_iterator_end_semantics_witness :
    btIterIsEnd ⟨1, (([(1, 10)] : List (Nat × Nat)).length : Int) - 1,
      some ⟨1, -1, 4, .leafNode [(1, 10)] (-1)⟩⟩ = some true ∧
    btIterMk bpoolInit (-1) (-1) = some (btEndIter, bpoolInit) :=
  ⟨(c10_iterator_end_semantics.1 1 (-1) 4 [(1, 10)] (by decide)).1,
    c10_iterator_end_semantics.2.1 bpoolInit⟩

end MyBustub



